import Mathlib

/-!
Shallow embedding of the ezft download client's chunked/resumable download
engine (package `client`: chunk.go, client.go, concurrent.go, resume.go),
together with proofs of the specification claims about it.

Go `int64` values are modelled as `Int` (no arithmetic in the embedded code
comes near the 64-bit boundary for the inputs the claims quantify over, and
no overflowing operation is performed by the modelled functions), byte
strings as `List Char` / `List Nat`, and the failure-ledger file as an
`Option (List Char)` (`none` = file absent, `some s` = file present with
content `s`).  Filesystem write/remove operations, whose success depends on
the environment, take an explicit `Bool` outcome parameter.
-/

namespace Ezft

/-- Type `Chunk` from chunk.go: a download chunk with ordinal `Index` and
inclusive byte offsets `Start`, `End`. -/
structure Chunk where
  Index : Int
  Start : Int
  End : Int
deriving Repr, DecidableEq

/-- Type `DownloadConfig` from client.go. -/
structure DownloadConfig where
  URL : List Char
  OutputPath : List Char
  FailedChunksJason : List Char
  ChunkSize : Int
  FileSize : Int
  MaxConcurrency : Int
  RetryCount : Nat
  EnableResume : Bool
  AutoChunk : Bool
deriving Repr, DecidableEq

/-- Function `calculateChunkSize` from chunk.go: derive a chunk size from the total
size, by bands. -/
def calculateChunkSize (totalSize : Int) : Int :=
  if totalSize > 100 * 1024 * 1024 * 1024 then 100 * 1024 * 1024
  else if totalSize > 10 * 1024 * 1024 * 1024 then 50 * 1024 * 1024
  else if totalSize > 1 * 1024 * 1024 * 1024 then 20 * 1024 * 1024
  else if totalSize > 100 * 1024 * 1024 then 10 * 1024 * 1024
  else 4 * 1024 * 1024

/-- The loop body of `calculateChunks` (chunk.go):
`for i := start; i < end; i += chunkSize` appending
`{Index: (i-start)/chunkSize, Start: i, End: min(i+chunkSize-1, end-1)}`.
`fuel` bounds the number of iterations; any `fuel > (endPos - i)` is enough
when `chunkSize ≥ 1`. -/
def calcLoop (start endPos chunkSize : Int) : Nat → Int → List Chunk
  | 0, _ => []
  | fuel + 1, i =>
    if i < endPos then
      let e0 := i + chunkSize - 1
      let c : Chunk :=
        { Index := (i - start) / chunkSize
          Start := i
          End := if e0 ≥ endPos then endPos - 1 else e0 }
      c :: calcLoop start endPos chunkSize fuel (i + chunkSize)
    else []

/-- Function `calculateChunks` from chunk.go.  When `AutoChunk` is set it first
overwrites `config.ChunkSize` with `calculateChunkSize (end - start)`; the
updated config is returned as the second component (modelling the mutation
of `c.config`). -/
def calculateChunks (cfg : DownloadConfig) (start endPos : Int) :
    List Chunk × DownloadConfig :=
  let cfg' := if cfg.AutoChunk then
    { cfg with ChunkSize := calculateChunkSize (endPos - start) } else cfg
  (calcLoop start endPos cfg'.ChunkSize ((endPos - start).toNat + 1) start, cfg')

/-- Adjacent chunks in the list are contiguous: each later chunk's `Start`
is the previous chunk's `End + 1`. -/
def chainB : List Chunk → Bool
  | [] => true
  | [_] => true
  | a :: b :: t => (b.Start == a.End + 1) && chainB (b :: t)

/-- Every chunk satisfies `Start ≤ End`. -/
def allStartLeEndB (l : List Chunk) : Bool :=
  l.all (fun c => c.Start ≤ c.End)

/-- The `Index` fields are `n, n+1, n+2, ...` in list order. -/
def indicesFromB : Int → List Chunk → Bool
  | _, [] => true
  | n, c :: t => (c.Index == n) && indicesFromB (n + 1) t

/-- The `Start` of the first chunk, if any. -/
def headStart (l : List Chunk) : Option Int :=
  l.head?.map Chunk.Start

/-- The `End` of the last chunk, if any. -/
def lastEnd (l : List Chunk) : Option Int :=
  l.getLast?.map Chunk.End

/-- A concrete config used to instantiate theorems with hypotheses
(AutoChunk disabled, chunk size 10). -/
def testCfg : DownloadConfig :=
  { URL := [], OutputPath := [], FailedChunksJason := []
    ChunkSize := 10, FileSize := 0, MaxConcurrency := 3, RetryCount := 3
    EnableResume := true, AutoChunk := false }

/-- A concrete config with AutoChunk enabled and a sentinel ChunkSize. -/
def autoCfg : DownloadConfig :=
  { URL := [], OutputPath := [], FailedChunksJason := []
    ChunkSize := 1, FileSize := 0, MaxConcurrency := 3, RetryCount := 3
    EnableResume := true, AutoChunk := true }

/-- One positioned write `file.WriteAt(buffer[:n], currentOffset)`. -/
structure WriteRec where
  offset : Int
  data : List Nat
deriving Repr, DecidableEq

/-- An HTTP response as observed by `downloadChunkOnce`: the status code,
the successive results of `resp.Body.Read` (each one batch of bytes, at most
the 32KB buffer in the code — the model allows any batch size), and whether
after the final batch `Read` reports an error (`readErr = true`) or a clean
`io.EOF` (`readErr = false`). -/
structure HttpResponse where
  statusCode : Nat
  reads : List (List Nat)
  readErr : Bool

/-- Total number of bytes delivered by the response body. -/
def sumLens (reads : List (List Nat)) : Nat :=
  (reads.map List.length).sum

/-- Total number of bytes written by a list of positioned writes. -/
def totalBytes (ws : List WriteRec) : Nat :=
  (ws.map (fun w => w.data.length)).sum

/-- The writes are contiguous starting at `off`: each write lands at the
running cursor. -/
def contigFromB : Int → List WriteRec → Bool
  | _, [] => true
  | off, w :: ws => (w.offset == off) && contigFromB (off + w.data.length) ws

/-- The streaming loop of `downloadChunkOnce` (chunk.go lines 66-103):
repeatedly `Read`, clamp `n` so that `currentOffset+n ≤ chunk.End+1`,
`WriteAt` the clamped batch at `currentOffset`, advance the cursor, break on
`io.EOF`, fail on a read error, and break once `currentOffset > chunk.End`.
Returns `(success, positioned writes in order, final cursor)`. -/
def streamLoop (endPos : Int) : List (List Nat) → Bool → Int →
    Bool × List WriteRec × Int
  | [], readErr, off => (!readErr, [], off)
  | r :: rs, readErr, off =>
    if r.length = 0 then
      if off > endPos then (true, [], off)
      else streamLoop endPos rs readErr off
    else
      let n : Int :=
        if off + r.length > endPos + 1 then endPos + 1 - off
        else (r.length : Int)
      let w : WriteRec := ⟨off, r.take n.toNat⟩
      if off + n > endPos then (true, [w], off + n)
      else
        let rest := streamLoop endPos rs readErr (off + n)
        (rest.1, w :: rest.2.1, rest.2.2)

/-- Function `downloadChunkOnce` from chunk.go: fail unless the status is
`206 Partial Content`, otherwise stream the body into positioned writes.
Returns `(success, writes)`. -/
def downloadChunkOnceM (chunk : Chunk) (resp : HttpResponse) :
    Bool × List WriteRec :=
  if resp.statusCode ≠ 206 then (false, [])
  else
    let r := streamLoop chunk.End resp.reads resp.readErr chunk.Start
    (r.1, r.2.1)

/-- Function `downloadChunk` from chunk.go: retry `downloadChunkOnce` up to
`retryCount` additional times (every attempt observing the same response in
this model), returning on the first success, or the last failure; writes of
all attempts accumulate in the file. -/
def downloadChunkM (chunk : Chunk) (resp : HttpResponse) :
    Nat → Bool × List WriteRec
  | 0 => downloadChunkOnceM chunk resp
  | n + 1 =>
    let r := downloadChunkOnceM chunk resp
    if r.1 then r
    else
      let rest := downloadChunkM chunk resp n
      (rest.1, r.2 ++ rest.2)

/-- Predicate `isDigitChar c`: `c` is one of `0`-`9`. -/
def isDigitChar (c : Char) : Bool :=
  48 ≤ c.toNat && c.toNat ≤ 57

/-- The decimal digit character for `d < 10`. -/
def digitChar : Nat → Char
  | 0 => '0' | 1 => '1' | 2 => '2' | 3 => '3' | 4 => '4'
  | 5 => '5' | 6 => '6' | 7 => '7' | 8 => '8' | _ => '9'

/-- Big-endian decimal digits of `n`; `fuel > n` is always enough. -/
def natDigitsAux : Nat → Nat → List Char
  | 0, _ => []
  | fuel + 1, n =>
    if n < 10 then [digitChar n]
    else natDigitsAux fuel (n / 10) ++ [digitChar (n % 10)]

/-- Big-endian decimal digits of `n` (no leading zeros, `"0"` for zero). -/
def natDigits (n : Nat) : List Char := natDigitsAux (n + 1) n

/-- The decimal representation of an integer, exactly as Go's
`json.Marshal` renders an `int64`. -/
def intChars (i : Int) : List Char :=
  if i < 0 then '-' :: natDigits (-i).toNat else natDigits i.toNat

/-- The characters `{"Index":` opening a marshalled `Chunk`. -/
def litIndex : List Char := ['\x7b', '\"', 'I', 'n', 'd', 'e', 'x', '\"', ':']

/-- The characters `,"Start":`. -/
def litStart : List Char := [',', '\"', 'S', 't', 'a', 'r', 't', '\"', ':']

/-- The characters `,"End":`. -/
def litEnd : List Char := [',', '\"', 'E', 'n', 'd', '\"', ':']

/-- The closing brace of a marshalled `Chunk`. -/
def litClose : List Char := ['\x7d']

/-- The characters `null` (Go marshals a nil slice as `null`). -/
def litNull : List Char := ['n', 'u', 'l', 'l']

/-- Go `json.Marshal` of one `Chunk` value: field names in declaration
order, integer fields in decimal. -/
def encodeChunk (c : Chunk) : List Char :=
  litIndex ++ intChars c.Index ++ litStart ++ intChars c.Start ++
    litEnd ++ intChars c.End ++ litClose

/-- The comma-separated chunk objects inside a marshalled array. -/
def encodeChunkSeq : List Chunk → List Char
  | [] => []
  | [c] => encodeChunk c
  | c :: c2 :: rest => encodeChunk c ++ ',' :: encodeChunkSeq (c2 :: rest)

/-- Go `json.Marshal` of a `[]Chunk` (the ledger file content written by
`saveFailedChunks`): `null` for an empty slice, otherwise a JSON array. -/
def encodeChunks (l : List Chunk) : List Char :=
  match l with
  | [] => litNull
  | _ :: _ => '[' :: (encodeChunkSeq l ++ [']'])

/-- Consume an expected literal from the front of the input. -/
def expectLit : List Char → List Char → Option (List Char)
  | [], s => some s
  | _ :: _, [] => none
  | p :: ps, c :: cs => if c = p then expectLit ps cs else none

/-- The input does not begin with a decimal digit. -/
def headNotDigit : List Char → Bool
  | [] => true
  | c :: _ => !isDigitChar c

/-- Accumulate a maximal run of decimal digits. -/
def parseDigitsAux : Nat → List Char → Nat × List Char
  | acc, [] => (acc, [])
  | acc, c :: cs =>
    if isDigitChar c then parseDigitsAux (acc * 10 + (c.toNat - 48)) cs
    else (acc, c :: cs)

/-- The value of a digit run folded onto an accumulator. -/
def digitsVal (acc : Nat) (ds : List Char) : Nat :=
  ds.foldl (fun a c => a * 10 + (c.toNat - 48)) acc

/-- Parse a nonempty decimal digit run. -/
def parseNat : List Char → Option (Nat × List Char)
  | [] => none
  | c :: cs =>
    if isDigitChar c then some (parseDigitsAux (c.toNat - 48) cs)
    else none

/-- Parse a JSON integer (optional leading minus, then digits). -/
def parseIntJson (cs : List Char) : Option (Int × List Char) :=
  match cs with
  | [] => none
  | c :: cs' =>
    if c = '-' then (parseNat cs').map (fun p => (-(p.1 : Int), p.2))
    else (parseNat (c :: cs')).map (fun p => ((p.1 : Int), p.2))

/-- Parse one marshalled `Chunk` object. -/
def parseChunk (cs : List Char) : Option (Chunk × List Char) :=
  (expectLit litIndex cs).bind (fun cs1 =>
  (parseIntJson cs1).bind (fun p1 =>
  (expectLit litStart p1.2).bind (fun cs3 =>
  (parseIntJson cs3).bind (fun p2 =>
  (expectLit litEnd p2.2).bind (fun cs5 =>
  (parseIntJson cs5).bind (fun p3 =>
  (expectLit litClose p3.2).map (fun cs7 =>
  (⟨p1.1, p2.1, p3.1⟩, cs7))))))))

/-- Parse a comma-separated sequence of chunk objects; each object consumes
at least one character, so `fuel ≥` the input length is always enough. -/
def parseChunkSeqAux : Nat → List Char → Option (List Chunk × List Char)
  | 0, _ => none
  | fuel + 1, cs =>
    (parseChunk cs).bind (fun p =>
      match p.2 with
      | [] => some ([p.1], [])
      | c0 :: cs2 =>
        if c0 = ',' then
          (parseChunkSeqAux fuel cs2).map (fun q => (p.1 :: q.1, q.2))
        else some ([p.1], c0 :: cs2))

/-- Model of Go `json.Unmarshal` into `[]Chunk` (the decoder accepts the
canonical `json.Marshal` form; anything else is unparseable content). -/
def decodeChunks (cs : List Char) : Option (List Chunk) :=
  if cs = litNull then some []
  else
    match cs with
    | [] => none
    | c0 :: cs' =>
      if c0 = '[' then
        if cs' = [']'] then some []
        else
          (parseChunkSeqAux cs'.length cs').bind (fun p =>
            if p.2 = [']'] then some p.1 else none)
      else none

/-- Error of `loadFailedChunks`: the ledger file exists but its content is
not parseable. -/
inductive LoadErr where
  | parseFailed
deriving Repr, DecidableEq

/-- Function `loadFailedChunks` from chunk.go: a missing ledger file yields the
empty list without error; an existing file is read and unmarshalled, and
unparseable content is an error. -/
def loadFailedChunksM (fs : Option (List Char)) : Except LoadErr (List Chunk) :=
  match fs with
  | none => .ok []
  | some s =>
    match decodeChunks s with
    | some l => .ok l
    | none => .error .parseFailed

/-- Function `saveFailedChunks` from chunk.go: marshal the chunk list and overwrite
the ledger file; `saveOk` is the outcome of `os.WriteFile` (on failure the
previous file state is kept). -/
def saveFailedChunksM (chunks : List Chunk) (saveOk : Bool)
    (fs : Option (List Char)) : Except Unit Unit × Option (List Char) :=
  if saveOk then (.ok (), some (encodeChunks chunks)) else (.error (), fs)

/-- Errors surfaced by the chunk download passes.  `chunkFailed c` stands
for the error built from chunk `c`'s terminal download error
(`fmt.Errorf` wrapping it); `saveLedgerFailed` / `removeLedgerFailed` wrap
only the filesystem error of writing / removing the ledger. -/
inductive DlError where
  | chunkFailed (c : Chunk)
  | saveLedgerFailed
  | removeLedgerFailed
  | loadLedgerFailed
deriving Repr, DecidableEq

/-- Whether an error is (or wraps) the terminal download error of some
chunk. -/
def wrapsChunkError : DlError → Bool
  | .chunkFailed _ => true
  | _ => false

/-- Function `downloadChunksConcurrently` from concurrent.go.  `outcome c` is the
terminal result of `downloadChunk` for chunk `c` (true = success); the
failed-chunk accumulator collects the failed chunks (the model fixes the
list order, one admissible completion order) and `errors[0]` is the error
of the first failed chunk in that order.  `saveOk` / `removeOk` are the
outcomes of the `os.WriteFile` / `os.Remove` filesystem calls.  Returns
the function's result and the final ledger file state. -/
def downloadChunksConcurrentlyM (chunks : List Chunk)
    (outcome : Chunk → Bool) (saveOk removeOk : Bool)
    (fs : Option (List Char)) : Except DlError Unit × Option (List Char) :=
  match chunks.filter (fun c => !(outcome c)) with
  | [] =>
    match fs with
    | none => (.ok (), none)
    | some s =>
      if removeOk then (.ok (), none)
      else (.error .removeLedgerFailed, some s)
  | fc :: rest =>
    if saveOk then
      (.error (.chunkFailed fc), some (encodeChunks (fc :: rest)))
    else (.error .saveLedgerFailed, fs)

/-- Function `downloadChunksSequentially` from resume.go: chunks one at a time in
list order; the first terminal failure saves exactly that one chunk to the
ledger (the original download error is returned even if the save fails)
and aborts; full success deletes any existing ledger file.  Returns
`(result, final ledger state, chunks attempted in order)`. -/
def downloadChunksSequentiallyM (chunks : List Chunk)
    (outcome : Chunk → Bool) (saveOk removeOk : Bool)
    (fs : Option (List Char)) :
    Except DlError Unit × Option (List Char) × List Chunk :=
  match chunks with
  | [] =>
    match fs with
    | none => (.ok (), none, [])
    | some s =>
      if removeOk then (.ok (), none, [])
      else (.error .removeLedgerFailed, some s, [])
  | c :: rest =>
    if outcome c then
      let r := downloadChunksSequentiallyM rest outcome saveOk removeOk fs
      (r.1, r.2.1, c :: r.2.2)
    else
      (.error (.chunkFailed c),
       if saveOk then some (encodeChunks [c]) else fs,
       [c])

/-- The replay phase of `downloadWithResume` (resume.go): load the failure
ledger; a load error aborts; an empty pending list is skipped; otherwise
exactly the pending chunks are downloaded sequentially. -/
def resumeReplayM (outcome : Chunk → Bool) (saveOk removeOk : Bool)
    (fs : Option (List Char)) :
    Except DlError Unit × Option (List Char) × List Chunk :=
  match loadFailedChunksM fs with
  | .error _ => (.error .loadLedgerFailed, fs, [])
  | .ok [] => (.ok (), fs, [])
  | .ok (c :: rest) =>
    downloadChunksSequentiallyM (c :: rest) outcome saveOk removeOk fs

/-- Parse a Go `strconv.ParseInt(s, 10, 64)` input: optional sign, then
digits, consuming the whole string. -/
def parseGoInt (cs : List Char) : Option Int :=
  match cs with
  | [] => none
  | c :: cs' =>
    if c = '-' then
      (parseNat cs').bind (fun p =>
        if p.2 = [] then some (-(p.1 : Int)) else none)
    else if c = '+' then
      (parseNat cs').bind (fun p =>
        if p.2 = [] then some ((p.1 : Int)) else none)
    else
      (parseNat (c :: cs')).bind (fun p =>
        if p.2 = [] then some ((p.1 : Int)) else none)

/-- ASCII lower-casing of one character (`strings.ToLower` on the header
values involved). -/
def lowerChar (c : Char) : Char :=
  if 65 ≤ c.toNat && c.toNat ≤ 90 then Char.ofNat (c.toNat + 32) else c

/-- ASCII lower-casing of a header value. -/
def lowerStr (s : List Char) : List Char := s.map lowerChar

/-- The characters `bytes`. -/
def litBytes : List Char := ['b', 'y', 't', 'e', 's']

/-- The HEAD response observed by `getFileInfo`. -/
structure HeadResponse where
  statusCode : Nat
  contentLength : List Char
  acceptRanges : List Char

/-- The `Range: bytes=0-0` probe request's outcome (`ok = false` means the
request itself failed). -/
structure RangeProbe where
  ok : Bool
  statusCode : Nat

/-- Errors of `getFileInfo`. -/
inductive InfoErr where
  | badStatus
  | badLength
  | probeFailed
deriving Repr, DecidableEq

/-- Function `getFileInfo` from client.go: require status 200, parse
`Content-Length` (mutating `config.FileSize`), report range support from
`Accept-Ranges: bytes` or else from a one-byte range probe expecting 206.
Returns the result and the (possibly mutated) config. -/
def getFileInfoM (cfg : DownloadConfig) (hr : HeadResponse)
    (probe : RangeProbe) : Except InfoErr (Int × Bool) × DownloadConfig :=
  if hr.statusCode ≠ 200 then (.error .badStatus, cfg)
  else
    match parseGoInt hr.contentLength with
    | none => (.error .badLength, cfg)
    | some fileSize =>
      let cfg' := { cfg with FileSize := fileSize }
      if lowerStr hr.acceptRanges = litBytes then (.ok (fileSize, true), cfg')
      else if probe.ok then (.ok (fileSize, probe.statusCode = 206), cfg')
      else (.error .probeFailed, cfg')

theorem calcLoop_nil (start endPos chunkSize : Int) (fuel : Nat) (i : Int)
    (h : endPos ≤ i) : calcLoop start endPos chunkSize fuel i = [] := by
  cases fuel with
  | zero => rfl
  | succ f =>
    simp only [calcLoop]
    rw [if_neg (not_lt.mpr h)]

theorem calcLoop_spec (start endPos chunkSize : Int) (hk : 1 ≤ chunkSize) :
    ∀ (fuel : Nat) (i : Int), (endPos - i).toNat < fuel → i < endPos →
      headStart (calcLoop start endPos chunkSize fuel i) = some i ∧
      lastEnd (calcLoop start endPos chunkSize fuel i) = some (endPos - 1) ∧
      chainB (calcLoop start endPos chunkSize fuel i) = true ∧
      allStartLeEndB (calcLoop start endPos chunkSize fuel i) = true ∧
      indicesFromB ((i - start) / chunkSize)
        (calcLoop start endPos chunkSize fuel i) = true ∧
      (calcLoop start endPos chunkSize fuel i).length
        = ((endPos - i + chunkSize - 1) / chunkSize).toNat := by
  intro fuel
  induction fuel with
  | zero => intro i hf hi; omega
  | succ f ih =>
    intro i hf hi
    have hunf : calcLoop start endPos chunkSize (f + 1) i =
        ({ Index := (i - start) / chunkSize, Start := i,
           End := if i + chunkSize - 1 ≥ endPos then endPos - 1
                  else i + chunkSize - 1 } : Chunk) ::
        calcLoop start endPos chunkSize f (i + chunkSize) := by
      simp only [calcLoop]
      rw [if_pos hi]
    rw [hunf]
    by_cases hnext : i + chunkSize < endPos
    · -- more chunks follow
      have hf' : (endPos - (i + chunkSize)).toNat < f := by omega
      obtain ⟨h1, h2, h3, h4, h5, h6⟩ := ih (i + chunkSize) hf' hnext
      obtain ⟨r0, t, hrt⟩ : ∃ r0 t,
          calcLoop start endPos chunkSize f (i + chunkSize) = r0 :: t := by
        cases hcl : calcLoop start endPos chunkSize f (i + chunkSize) with
        | nil => rw [hcl] at h1; simp [headStart] at h1
        | cons a b => exact ⟨a, b, rfl⟩
      have hr0 : r0.Start = i + chunkSize := by
        rw [hrt] at h1; simp [headStart] at h1; omega
      have hEnd : (if i + chunkSize - 1 ≥ endPos then endPos - 1
          else i + chunkSize - 1) = i + chunkSize - 1 := by
        rw [if_neg (by omega)]
      refine ⟨?_, ?_, ?_, ?_, ?_, ?_⟩
      · simp [headStart]
      · rw [hrt] at h2 ⊢
        simpa [lastEnd, List.getLast?_cons_cons] using h2
      · rw [hrt] at h3 ⊢
        simp only [chainB, Bool.and_eq_true, beq_iff_eq]
        exact ⟨by rw [hr0, hEnd]; ring, h3⟩
      · rw [hrt] at h4 ⊢
        simp only [allStartLeEndB, List.all_cons, Bool.and_eq_true,
          decide_eq_true_eq] at h4 ⊢
        refine ⟨by rw [hEnd]; omega, h4⟩
      · simp only [indicesFromB, Bool.and_eq_true, beq_iff_eq]
        refine ⟨trivial, ?_⟩
        have hdiv : (i + chunkSize - start) / chunkSize
            = (i - start) / chunkSize + 1 := by
          rw [show i + chunkSize - start = i - start + 1 * chunkSize from by ring,
            Int.add_mul_ediv_right _ _ (show chunkSize ≠ 0 from by omega)]
        rw [← hdiv]
        exact h5
      · simp only [List.length_cons, h6]
        have hx : 0 ≤ endPos - (i + chunkSize) + chunkSize - 1 := by omega
        have hstep : (endPos - i + chunkSize - 1) / chunkSize
            = (endPos - (i + chunkSize) + chunkSize - 1) / chunkSize + 1 := by
          rw [show endPos - i + chunkSize - 1
              = endPos - (i + chunkSize) + chunkSize - 1 + 1 * chunkSize from by ring,
            Int.add_mul_ediv_right _ _ (show chunkSize ≠ 0 from by omega)]
        have hdnn : 0 ≤ (endPos - (i + chunkSize) + chunkSize - 1) / chunkSize :=
          Int.ediv_nonneg hx (by omega)
        omega
    · -- last chunk
      have hrest : calcLoop start endPos chunkSize f (i + chunkSize) = [] :=
        calcLoop_nil _ _ _ _ _ (by omega)
      rw [hrest]
      have hEnd : (if i + chunkSize - 1 ≥ endPos then endPos - 1
          else i + chunkSize - 1) = endPos - 1 := by
        by_cases h : i + chunkSize - 1 ≥ endPos
        · rw [if_pos h]
        · rw [if_neg h]; omega
      refine ⟨by simp [headStart], ?_, rfl, ?_, ?_, ?_⟩
      · simp [lastEnd, hEnd]
      · simp only [allStartLeEndB, List.all_cons, List.all_nil,
          Bool.and_true, decide_eq_true_eq]
        rw [hEnd]; omega
      · simp [indicesFromB]
      · simp only [List.length_cons, List.length_nil]
        have h1 : (endPos - i + chunkSize - 1) / chunkSize = 1 := by
          have hz : (endPos - i - 1) / chunkSize = 0 :=
            Int.ediv_eq_zero_of_lt (by omega) (by omega)
          rw [show endPos - i + chunkSize - 1
              = endPos - i - 1 + 1 * chunkSize from by ring,
            Int.add_mul_ediv_right _ _ (show chunkSize ≠ 0 from by omega), hz]
          ring
        omega

theorem calcChunks_props (cfg : DownloadConfig) (s e : Int)
    (hA : cfg.AutoChunk = false) (hk : 0 < cfg.ChunkSize) :
    (e ≤ s → (calculateChunks cfg s e).1 = []) ∧
    (s < e →
      headStart (calculateChunks cfg s e).1 = some s ∧
      lastEnd (calculateChunks cfg s e).1 = some (e - 1) ∧
      chainB (calculateChunks cfg s e).1 = true ∧
      allStartLeEndB (calculateChunks cfg s e).1 = true ∧
      indicesFromB 0 (calculateChunks cfg s e).1 = true ∧
      (calculateChunks cfg s e).1.length
        = ((e - s + cfg.ChunkSize - 1) / cfg.ChunkSize).toNat) := by
  have hcfg : (calculateChunks cfg s e).1
      = calcLoop s e cfg.ChunkSize ((e - s).toNat + 1) s := by
    simp [calculateChunks, hA]
  constructor
  · intro he
    rw [hcfg]
    exact calcLoop_nil _ _ _ _ _ he
  · intro hlt
    have hmain := calcLoop_spec s e cfg.ChunkSize (by omega)
      ((e - s).toNat + 1) s (by omega) hlt
    rw [hcfg]
    have hzero : (s - s) / cfg.ChunkSize = 0 := by
      rw [sub_self, Int.zero_ediv]
    rw [hzero] at hmain
    exact hmain

/-- C1: for AutoChunk disabled and effective chunk size > 0,
`calculateChunks start end` exactly tiles `[start, end-1]` whenever
`end > start`: the first chunk starts at `start`, each later chunk's `Start`
is the previous chunk's `End + 1`, the last chunk ends at `end - 1`, every
chunk has `Start ≤ End`, the `Index` fields are `0,1,2,...` in order, and
the number of chunks is `ceil((end-start)/chunkSize)`; and for
`end ≤ start` it returns the empty sequence (and there is no error to
return: the function is total). -/
theorem calculateChunks_partition (cfg : DownloadConfig) (s e : Int)
    (hA : cfg.AutoChunk = false) (hk : 0 < cfg.ChunkSize) :
    (e ≤ s → (calculateChunks cfg s e).1 = []) ∧
    (s < e →
      headStart (calculateChunks cfg s e).1 = some s ∧
      lastEnd (calculateChunks cfg s e).1 = some (e - 1) ∧
      chainB (calculateChunks cfg s e).1 = true ∧
      allStartLeEndB (calculateChunks cfg s e).1 = true ∧
      indicesFromB 0 (calculateChunks cfg s e).1 = true ∧
      (calculateChunks cfg s e).1.length
        = ((e - s + cfg.ChunkSize - 1) / cfg.ChunkSize).toNat) :=
  calcChunks_props cfg s e hA hk

/-- Witness for C1 at `(start, end, chunkSize) = (0, 25, 10)`. -/
theorem calculateChunks_partition_witness :
    headStart (calculateChunks testCfg 0 25).1 = some 0 ∧
    lastEnd (calculateChunks testCfg 0 25).1 = some 24 ∧
    chainB (calculateChunks testCfg 0 25).1 = true ∧
    allStartLeEndB (calculateChunks testCfg 0 25).1 = true ∧
    indicesFromB 0 (calculateChunks testCfg 0 25).1 = true ∧
    (calculateChunks testCfg 0 25).1.length = 3 :=
  (calculateChunks_partition testCfg 0 25 rfl (by decide)).2 (by decide)

/-- C8: `calculateChunkSize` is monotone non-decreasing in the total size,
always positive, and matches the documented bands
(≤100MB→4MB, ≤1GB→10MB, ≤10GB→20MB, ≤100GB→50MB, >100GB→100MB). -/
theorem calculateChunkSize_spec :
    (∀ s1 s2 : Int, s1 < s2 →
      calculateChunkSize s1 ≤ calculateChunkSize s2) ∧
    (∀ s : Int, 0 < calculateChunkSize s) ∧
    (∀ s : Int,
      (s ≤ 100 * 1024 * 1024 →
        calculateChunkSize s = 4 * 1024 * 1024) ∧
      (100 * 1024 * 1024 < s ∧ s ≤ 1024 * 1024 * 1024 →
        calculateChunkSize s = 10 * 1024 * 1024) ∧
      (1024 * 1024 * 1024 < s ∧ s ≤ 10 * 1024 * 1024 * 1024 →
        calculateChunkSize s = 20 * 1024 * 1024) ∧
      (10 * 1024 * 1024 * 1024 < s ∧ s ≤ 100 * 1024 * 1024 * 1024 →
        calculateChunkSize s = 50 * 1024 * 1024) ∧
      (100 * 1024 * 1024 * 1024 < s →
        calculateChunkSize s = 100 * 1024 * 1024)) := by
  refine ⟨?_, ?_, ?_⟩
  · intro s1 s2 h
    simp only [calculateChunkSize]
    split_ifs <;> omega
  · intro s
    simp only [calculateChunkSize]
    split_ifs <;> omega
  · intro s
    simp only [calculateChunkSize]
    refine ⟨?_, ?_, ?_, ?_, ?_⟩ <;> intro h <;> split_ifs <;> omega

/-- Witness for C8 at sizes 5 and 200MB. -/
theorem calculateChunkSize_spec_witness :
    calculateChunkSize 5 ≤ calculateChunkSize (200 * 1024 * 1024) ∧
    0 < calculateChunkSize 5 ∧
    calculateChunkSize (200 * 1024 * 1024) = 10 * 1024 * 1024 :=
  ⟨calculateChunkSize_spec.1 5 (200 * 1024 * 1024) (by decide),
   calculateChunkSize_spec.2.1 5,
   (calculateChunkSize_spec.2.2 (200 * 1024 * 1024)).2.1 (by decide)⟩

theorem streamLoop_spec (endPos : Int) :
    ∀ (reads : List (List Nat)) (readErr : Bool) (off : Int), off ≤ endPos →
      (streamLoop endPos reads readErr off).2.2
        = off + min (sumLens reads : Int) (endPos + 1 - off) ∧
      contigFromB off (streamLoop endPos reads readErr off).2.1 = true ∧
      totalBytes (streamLoop endPos reads readErr off).2.1
        = min (sumLens reads) (endPos + 1 - off).toNat ∧
      (readErr = false → (streamLoop endPos reads readErr off).1 = true) ∧
      (endPos + 1 - off ≤ (sumLens reads : Int) →
        (streamLoop endPos reads readErr off).1 = true) ∧
      (∀ w ∈ (streamLoop endPos reads readErr off).2.1,
        off ≤ w.offset ∧ w.offset + w.data.length ≤ endPos + 1 ∧
        1 ≤ w.data.length) := by
  intro reads
  induction reads with
  | nil =>
    intro readErr off hoff
    refine ⟨by simp [streamLoop, sumLens]; omega, rfl, ?_, ?_, ?_, ?_⟩
    · simp [streamLoop, sumLens, totalBytes]
    · intro h; simp [streamLoop, h]
    · intro h; simp [sumLens] at h; omega
    · intro w hw; simp [streamLoop] at hw
  | cons r rs ih =>
    intro readErr off hoff
    by_cases hr : r.length = 0
    · have hunf : streamLoop endPos (r :: rs) readErr off
          = streamLoop endPos rs readErr off := by
        simp only [streamLoop]
        rw [if_pos hr, if_neg (not_lt.mpr hoff)]
      have hsum : sumLens (r :: rs) = sumLens rs := by
        simp [sumLens, hr]
      rw [hunf, hsum]
      exact ih readErr off hoff
    · -- a nonempty batch
      have hm : 1 ≤ r.length := by omega
      by_cases hclamp : off + (r.length : Int) > endPos + 1
      · -- clamped write, then break
        have hn : (if off + (r.length : Int) > endPos + 1
            then endPos + 1 - off else (r.length : Int)) = endPos + 1 - off := by
          rw [if_pos hclamp]
        have hunf : streamLoop endPos (r :: rs) readErr off
            = (true, [⟨off, r.take (endPos + 1 - off).toNat⟩], endPos + 1) := by
          simp only [streamLoop]
          rw [if_neg hr]
          simp only [hn]
          rw [if_pos (by omega)]
          have : off + (endPos + 1 - off) = endPos + 1 := by ring
          rw [this]
        rw [hunf]
        dsimp only
        have hlen : (r.take (endPos + 1 - off).toNat).length
            = (endPos + 1 - off).toNat := by
          rw [List.length_take]
          omega
        have hsum : sumLens (r :: rs) = r.length + sumLens rs := by
          simp [sumLens]
        refine ⟨?_, ?_, ?_, fun _ => rfl, fun _ => rfl, ?_⟩
        · omega
        · simp [contigFromB]
        · simp only [totalBytes, List.map_cons, List.map_nil, List.sum_cons,
            List.sum_nil, hlen]
          omega
        · intro w hw
          simp only [List.mem_singleton] at hw
          subst hw
          dsimp only
          simp only [hlen]
          refine ⟨le_refl _, by omega, by omega⟩
      · -- unclamped write
        have hn : (if off + (r.length : Int) > endPos + 1
            then endPos + 1 - off else (r.length : Int)) = (r.length : Int) := by
          rw [if_neg hclamp]
        have htake : r.take ((r.length : Int)).toNat = r := by
          simp
        by_cases hbrk : off + (r.length : Int) > endPos
        · -- write fills the chunk exactly, then break
          have hunf : streamLoop endPos (r :: rs) readErr off
              = (true, [⟨off, r⟩], off + r.length) := by
            simp only [streamLoop]
            rw [if_neg hr]
            simp only [hn]
            rw [if_pos hbrk, htake]
          rw [hunf]
          dsimp only
          have hsum : sumLens (r :: rs) = r.length + sumLens rs := by
            simp [sumLens]
          refine ⟨?_, ?_, ?_, fun _ => rfl, fun _ => rfl, ?_⟩
          · omega
          · simp [contigFromB]
          · simp only [totalBytes, List.map_cons, List.map_nil, List.sum_cons,
              List.sum_nil]
            omega
          · intro w hw
            simp only [List.mem_singleton] at hw
            subst hw
            dsimp only
            exact ⟨le_refl _, by omega, by omega⟩
        · -- continue with the rest of the body
          have hoff' : off + (r.length : Int) ≤ endPos := by omega
          have hunf : streamLoop endPos (r :: rs) readErr off
              = ((streamLoop endPos rs readErr (off + r.length)).1,
                 ⟨off, r⟩ :: (streamLoop endPos rs readErr (off + r.length)).2.1,
                 (streamLoop endPos rs readErr (off + r.length)).2.2) := by
            simp only [streamLoop]
            rw [if_neg hr]
            simp only [hn]
            rw [if_neg hbrk, htake]
          obtain ⟨ih1, ih2, ih3, ih4, ih5, ih6⟩ := ih readErr (off + r.length) hoff'
          rw [hunf]
          dsimp only
          have hsum : sumLens (r :: rs) = r.length + sumLens rs := by
            simp [sumLens]
          refine ⟨?_, ?_, ?_, ?_, ?_, ?_⟩
          · rw [ih1, hsum]; push_cast; omega
          · simpa [contigFromB] using ih2
          · simp only [totalBytes, List.map_cons, List.sum_cons]
            simp only [totalBytes] at ih3
            rw [ih3, hsum]
            omega
          · exact fun h => ih4 h
          · intro h
            apply ih5
            rw [hsum] at h
            push_cast at h ⊢
            omega
          · intro w hw
            rcases List.mem_cons.mp hw with hw | hw
            · subst hw
              dsimp only
              exact ⟨le_refl _, by omega, by omega⟩
            · obtain ⟨a, b, c⟩ := ih6 w hw
              exact ⟨by omega, b, c⟩

/-- C2 counterexample: for the 5-byte chunk `[0,4]`, a `206` response whose
body delivers a single byte and then a clean EOF makes `downloadChunkOnce`
(and hence `downloadChunk`, which stops retrying on the first reported
success) return success although only 1 byte, not `end - start + 1 = 5`,
was written. -/
theorem downloadChunkOnce_short_body_cex :
    (downloadChunkOnceM ⟨0, 0, 4⟩ ⟨206, [[7]], false⟩).1 = true ∧
    totalBytes (downloadChunkOnceM ⟨0, 0, 4⟩ ⟨206, [[7]], false⟩).2 = 1 ∧
    (downloadChunkM ⟨0, 0, 4⟩ ⟨206, [[7]], false⟩ 3).1 = true ∧
    totalBytes (downloadChunkM ⟨0, 0, 4⟩ ⟨206, [[7]], false⟩ 3).2 = 1 ∧
    ¬(1 = 4 - 0 + 1) := by
  refine ⟨rfl, rfl, rfl, rfl, by omega⟩

/-- C2 (amended): whenever a single chunk fetch succeeds it has written
only bytes of the chunk's own range, contiguously from `chunk.Start`, and
the number of bytes written is `min(delivered, end - start + 1)`; in
particular a body delivering at least `end - start + 1` bytes yields
exactly `end - start + 1` bytes at exactly `[start, end]`.  However a `206`
response whose body ends with a clean EOF short of `end - start + 1` bytes
still returns success (with only the delivered prefix written): success is
returned whenever the status is `206` and the body ends without a read
error, regardless of how many bytes were delivered. -/
theorem downloadChunkOnce_amended (chunk : Chunk) (resp : HttpResponse)
    (hse : chunk.Start ≤ chunk.End) (hst : resp.statusCode = 206) :
    (resp.readErr = false → (downloadChunkOnceM chunk resp).1 = true) ∧
    (chunk.End + 1 - chunk.Start ≤ (sumLens resp.reads : Int) →
      (downloadChunkOnceM chunk resp).1 = true) ∧
    contigFromB chunk.Start (downloadChunkOnceM chunk resp).2 = true ∧
    totalBytes (downloadChunkOnceM chunk resp).2
      = min (sumLens resp.reads) (chunk.End + 1 - chunk.Start).toNat ∧
    (∀ n, (downloadChunkOnceM chunk resp).1 = true →
      downloadChunkM chunk resp n = downloadChunkOnceM chunk resp) := by
  have hunf : downloadChunkOnceM chunk resp
      = ((streamLoop chunk.End resp.reads resp.readErr chunk.Start).1,
         (streamLoop chunk.End resp.reads resp.readErr chunk.Start).2.1) := by
    simp [downloadChunkOnceM, hst]
  obtain ⟨h1, h2, h3, h4, h5, _⟩ :=
    streamLoop_spec chunk.End resp.reads resp.readErr chunk.Start hse
  refine ⟨?_, ?_, ?_, ?_, ?_⟩
  · intro h; rw [hunf]; exact h4 h
  · intro h; rw [hunf]; exact h5 h
  · rw [hunf]; exact h2
  · rw [hunf]; exact h3
  · intro n h
    cases n with
    | zero => rfl
    | succ m => simp [downloadChunkM, h]

/-- Witness for the amended C2 at chunk `[0,4]` with a 6-byte body. -/
theorem downloadChunkOnce_amended_witness :
    ((false = false) →
      (downloadChunkOnceM ⟨0, 0, 4⟩ ⟨206, [[1, 2, 3], [4, 5, 6]], false⟩).1
        = true) ∧
    ((4 : Int) + 1 - 0 ≤ (sumLens [[1, 2, 3], [4, 5, 6]] : Int) →
      (downloadChunkOnceM ⟨0, 0, 4⟩ ⟨206, [[1, 2, 3], [4, 5, 6]], false⟩).1
        = true) ∧
    contigFromB 0
      (downloadChunkOnceM ⟨0, 0, 4⟩ ⟨206, [[1, 2, 3], [4, 5, 6]], false⟩).2
      = true ∧
    totalBytes
      (downloadChunkOnceM ⟨0, 0, 4⟩ ⟨206, [[1, 2, 3], [4, 5, 6]], false⟩).2
      = min (sumLens [[1, 2, 3], [4, 5, 6]]) ((4 : Int) + 1 - 0).toNat ∧
    (∀ n, (downloadChunkOnceM ⟨0, 0, 4⟩ ⟨206, [[1, 2, 3], [4, 5, 6]], false⟩).1
        = true →
      downloadChunkM ⟨0, 0, 4⟩ ⟨206, [[1, 2, 3], [4, 5, 6]], false⟩ n
        = downloadChunkOnceM ⟨0, 0, 4⟩ ⟨206, [[1, 2, 3], [4, 5, 6]], false⟩) :=
  downloadChunkOnce_amended ⟨0, 0, 4⟩ ⟨206, [[1, 2, 3], [4, 5, 6]], false⟩
    (by decide) rfl

theorem chainB_tail (a : Chunk) (t : List Chunk) (h : chainB (a :: t) = true) :
    chainB t = true := by
  cases t with
  | nil => rfl
  | cons b t' =>
    simp only [chainB, Bool.and_eq_true] at h
    exact h.2

theorem startAdd_le (l : List Chunk) (hc : chainB l = true)
    (hs : allStartLeEndB l = true) :
    ∀ (k : Nat) (hk : k < l.length) (h0 : 0 < l.length),
      (l.get ⟨0, h0⟩).Start + k ≤ (l.get ⟨k, hk⟩).Start := by
  induction l with
  | nil => intro k hk h0; simp at hk
  | cons a t ih =>
    intro k hk h0
    cases k with
    | zero => simp
    | succ k' =>
      cases t with
      | nil => simp at hk
      | cons b t' =>
        simp only [chainB, Bool.and_eq_true, beq_iff_eq] at hc
        have hab : b.Start = a.End + 1 := hc.1
        have hsa : a.Start ≤ a.End := by
          simp only [allStartLeEndB, List.all_cons, Bool.and_eq_true,
            decide_eq_true_eq] at hs
          exact hs.1
        have hst : allStartLeEndB (b :: t') = true := by
          simp only [allStartLeEndB, List.all_cons, Bool.and_eq_true] at hs ⊢
          exact hs.2
        have hk' : k' < (b :: t').length := by
          simpa using hk
        have := ih hc.2 hst k' hk' (by simp)
        simp only [List.get_cons_succ]
        simp only [List.get] at this ⊢
        push_cast at this ⊢
        omega

theorem chunks_separated (l : List Chunk) (hc : chainB l = true)
    (hs : allStartLeEndB l = true) :
    ∀ (i j : Nat) (hi : i < l.length) (hj : j < l.length), i < j →
      (l.get ⟨i, hi⟩).End < (l.get ⟨j, hj⟩).Start := by
  induction l with
  | nil => intro i j hi hj hij; simp at hi
  | cons a t ih =>
    intro i j hi hj hij
    cases j with
    | zero => omega
    | succ j' =>
      cases i with
      | zero =>
        cases t with
        | nil => simp at hj
        | cons b t' =>
          simp only [chainB, Bool.and_eq_true, beq_iff_eq] at hc
          have hj' : j' < (b :: t').length := by simpa using hj
          have hb := startAdd_le (b :: t') hc.2 (by
            simp only [allStartLeEndB, List.all_cons, Bool.and_eq_true] at hs ⊢
            exact hs.2) j' hj' (by simp)
          simp only [List.get_cons_succ]
          simp only [List.get] at hb ⊢
          omega
      | succ i' =>
        have hi' : i' < t.length := by simpa using hi
        have hj' : j' < t.length := by simpa using hj
        have := ih (chainB_tail a t hc) (by
          cases t with
          | nil => rfl
          | cons b t' =>
            simp only [allStartLeEndB, List.all_cons, Bool.and_eq_true] at hs ⊢
            exact hs.2) i' j' hi' hj' (by omega)
        simpa using this

/-- C3: every positioned write issued by `downloadChunkOnce` lies inside
the chunk's own extent `[Start, End]` (excess bytes beyond `End` are
truncated before writing), and for any partition produced by
`calculateChunks` (AutoChunk disabled, chunk size > 0) the writes of two
distinct chunks never touch overlapping file offsets, whatever the two
response bodies are. -/
theorem downloadChunk_writes_disjoint :
    (∀ (chunk : Chunk) (resp : HttpResponse), chunk.Start ≤ chunk.End →
      ∀ w ∈ (downloadChunkOnceM chunk resp).2,
        chunk.Start ≤ w.offset ∧
        w.offset + (w.data.length : Int) ≤ chunk.End + 1) ∧
    (∀ (cfg : DownloadConfig) (s e : Int), cfg.AutoChunk = false →
      0 < cfg.ChunkSize →
      ∀ (i j : Nat) (hi : i < (calculateChunks cfg s e).1.length)
        (hj : j < (calculateChunks cfg s e).1.length), i ≠ j →
      ∀ (resp1 resp2 : HttpResponse),
      ∀ w1 ∈ (downloadChunkOnceM
          ((calculateChunks cfg s e).1.get ⟨i, hi⟩) resp1).2,
      ∀ w2 ∈ (downloadChunkOnceM
          ((calculateChunks cfg s e).1.get ⟨j, hj⟩) resp2).2,
        w1.offset + (w1.data.length : Int) ≤ w2.offset ∨
        w2.offset + (w2.data.length : Int) ≤ w1.offset) := by
  have hwithin : ∀ (chunk : Chunk) (resp : HttpResponse),
      chunk.Start ≤ chunk.End →
      ∀ w ∈ (downloadChunkOnceM chunk resp).2,
        chunk.Start ≤ w.offset ∧
        w.offset + (w.data.length : Int) ≤ chunk.End + 1 := by
    intro chunk resp hse w hw
    by_cases hst : resp.statusCode = 206
    · have hunf : downloadChunkOnceM chunk resp
          = ((streamLoop chunk.End resp.reads resp.readErr chunk.Start).1,
             (streamLoop chunk.End resp.reads resp.readErr chunk.Start).2.1)
          := by
        simp [downloadChunkOnceM, hst]
      rw [hunf] at hw
      obtain ⟨_, _, _, _, _, h6⟩ :=
        streamLoop_spec chunk.End resp.reads resp.readErr chunk.Start hse
      obtain ⟨a, b, _⟩ := h6 w hw
      exact ⟨a, b⟩
    · have : downloadChunkOnceM chunk resp = (false, []) := by
        simp [downloadChunkOnceM, hst]
      rw [this] at hw
      simp at hw
  refine ⟨hwithin, ?_⟩
  intro cfg s e hA hk i j hi hj hij resp1 resp2 w1 hw1 w2 hw2
  -- the partition is empty unless s < e, so the chunk list is nonempty here
  have hse : s < e := by
    by_contra h
    have := (calcChunks_props cfg s e hA hk).1 (by omega)
    rw [this] at hi
    simp at hi
  obtain ⟨_, _, hchain, hsle, _, _⟩ :=
    (calcChunks_props cfg s e hA hk).2 hse
  have hok : ∀ (k : Nat) (hkk : k < (calculateChunks cfg s e).1.length),
      ((calculateChunks cfg s e).1.get ⟨k, hkk⟩).Start ≤
      ((calculateChunks cfg s e).1.get ⟨k, hkk⟩).End := by
    intro k hkk
    simp only [allStartLeEndB, List.all_eq_true, decide_eq_true_eq] at hsle
    exact hsle _ (List.get_mem _ _ hkk)
  have hb1 := hwithin _ resp1 (hok i hi) w1 hw1
  have hb2 := hwithin _ resp2 (hok j hj) w2 hw2
  rcases Nat.lt_or_ge i j with h | h
  · have hsep := chunks_separated _ hchain hsle i j hi hj h
    left
    omega
  · have hij' : j < i := by omega
    have hsep := chunks_separated _ hchain hsle j i hj hi hij'
    right
    omega

/-- Witness for C3: the first two chunks of the `(0,25,10)` partition and a
3-byte body each; the single writes land at offsets 0 and 10 and do not
overlap. -/
theorem downloadChunk_writes_disjoint_witness :
    (((0 : Int) ≤ 0 ∧
      (0 : Int) + (([1, 2, 3] : List Nat).length : Int) ≤ 4 + 1)) ∧
    ((0 : Int) + (([1, 2, 3] : List Nat).length : Int) ≤ 10 ∨
     (10 : Int) + (([1, 2, 3] : List Nat).length : Int) ≤ 0) :=
  ⟨downloadChunk_writes_disjoint.1 ⟨0, 0, 4⟩ ⟨206, [[1, 2, 3]], false⟩
      (by decide) ⟨0, [1, 2, 3]⟩ (by decide),
   downloadChunk_writes_disjoint.2 testCfg 0 25 rfl (by decide) 0 1
      (by decide) (by decide) (by omega) ⟨206, [[1, 2, 3]], false⟩
      ⟨206, [[1, 2, 3]], false⟩ ⟨0, [1, 2, 3]⟩ (by decide)
      ⟨10, [1, 2, 3]⟩ (by decide)⟩

theorem expectLit_append (p s : List Char) : expectLit p (p ++ s) = some s := by
  induction p with
  | nil => rfl
  | cons c cs ih => simp [expectLit, ih]

theorem digitChar_toNat (n : Nat) (h : n < 10) :
    (digitChar n).toNat = 48 + n := by
  interval_cases n <;> rfl

theorem digitChar_isDigit (n : Nat) (h : n < 10) :
    isDigitChar (digitChar n) = true := by
  interval_cases n <;> rfl

theorem parseDigitsAux_append (ds : List Char) :
    ∀ (acc : Nat) (rest : List Char), (∀ c ∈ ds, isDigitChar c = true) →
      headNotDigit rest = true →
      parseDigitsAux acc (ds ++ rest) = (digitsVal acc ds, rest) := by
  induction ds with
  | nil =>
    intro acc rest _ hrest
    cases rest with
    | nil => rfl
    | cons c cs =>
      simp only [headNotDigit, Bool.not_eq_true'] at hrest
      simp [parseDigitsAux, digitsVal, hrest]
  | cons d ds ih =>
    intro acc rest hds hrest
    have hd : isDigitChar d = true := hds d (by simp)
    simp only [List.cons_append, parseDigitsAux, hd, if_true]
    show parseDigitsAux (acc * 10 + (d.toNat - 48)) (ds ++ rest)
        = (digitsVal acc (d :: ds), rest)
    rw [ih _ rest (fun c hc => hds c (by simp [hc])) hrest]
    rfl

theorem natDigitsAux_spec : ∀ (fuel n : Nat), n < fuel →
    natDigitsAux fuel n ≠ [] ∧
    (∀ c ∈ natDigitsAux fuel n, isDigitChar c = true) ∧
    ∀ acc, digitsVal acc (natDigitsAux fuel n)
      = acc * 10 ^ (natDigitsAux fuel n).length + n := by
  intro fuel
  induction fuel with
  | zero => intro n h; omega
  | succ f ih =>
    intro n h
    by_cases h10 : n < 10
    · have hunf : natDigitsAux (f + 1) n = [digitChar n] := by
        simp [natDigitsAux, h10]
      rw [hunf]
      refine ⟨by simp, ?_, ?_⟩
      · intro c hc
        simp only [List.mem_singleton] at hc
        subst hc
        exact digitChar_isDigit n h10
      · intro acc
        simp only [digitsVal, List.foldl_cons, List.foldl_nil,
          List.length_singleton, pow_one]
        rw [digitChar_toNat n h10]
        omega
    · have hdiv : n / 10 < f := by
        have : n / 10 < n := Nat.div_lt_self (by omega) (by omega)
        omega
      have hunf : natDigitsAux (f + 1) n
          = natDigitsAux f (n / 10) ++ [digitChar (n % 10)] := by
        simp [natDigitsAux, h10]
      obtain ⟨ih1, ih2, ih3⟩ := ih (n / 10) hdiv
      rw [hunf]
      have hm : n % 10 < 10 := Nat.mod_lt _ (by omega)
      refine ⟨by simp, ?_, ?_⟩
      · intro c hc
        rcases List.mem_append.mp hc with hc | hc
        · exact ih2 c hc
        · simp only [List.mem_singleton] at hc
          subst hc
          exact digitChar_isDigit _ hm
      · intro acc
        have hsplit : digitsVal acc
              (natDigitsAux f (n / 10) ++ [digitChar (n % 10)])
            = digitsVal (digitsVal acc (natDigitsAux f (n / 10)))
              [digitChar (n % 10)] := by
          simp [digitsVal, List.foldl_append]
        rw [hsplit]
        have hone : digitsVal (digitsVal acc (natDigitsAux f (n / 10)))
              [digitChar (n % 10)]
            = digitsVal acc (natDigitsAux f (n / 10)) * 10 + n % 10 := by
          simp only [digitsVal, List.foldl_cons, List.foldl_nil]
          rw [digitChar_toNat _ hm]
          omega
        rw [hone, ih3 acc, List.length_append, List.length_singleton, pow_succ]
        have hfin : n / 10 * 10 + n % 10 = n := by omega
        calc (acc * 10 ^ (natDigitsAux f (n / 10)).length + n / 10) * 10
              + n % 10
            = acc * (10 ^ (natDigitsAux f (n / 10)).length * 10)
              + (n / 10 * 10 + n % 10) := by ring
          _ = acc * (10 ^ (natDigitsAux f (n / 10)).length * 10) + n := by
              rw [hfin]

theorem parseNat_encode (n : Nat) (rest : List Char)
    (hrest : headNotDigit rest = true) :
    parseNat (natDigits n ++ rest) = some (n, rest) := by
  obtain ⟨h1, h2, h3⟩ := natDigitsAux_spec (n + 1) n (by omega)
  rw [natDigits]
  cases hnd : natDigitsAux (n + 1) n with
  | nil => exact absurd hnd h1
  | cons c ds =>
    have hc : isDigitChar c = true := by
      apply h2
      rw [hnd]; simp
    simp only [List.cons_append, parseNat, hc, if_true]
    rw [parseDigitsAux_append ds _ rest
      (fun x hx => h2 x (by rw [hnd]; simp [hx])) hrest]
    have hval := h3 0
    rw [hnd] at hval
    simp only [digitsVal, List.foldl_cons, Nat.zero_mul, Nat.zero_add] at hval
    simp only [digitsVal]
    rw [hval]

theorem parseIntJson_encode (i : Int) (rest : List Char)
    (hrest : headNotDigit rest = true) :
    parseIntJson (intChars i ++ rest) = some (i, rest) := by
  obtain ⟨h1, h2, _⟩ := natDigitsAux_spec (i.natAbs + 1) i.natAbs (by omega)
  by_cases hneg : i < 0
  · have hunf : intChars i = '-' :: natDigits (-i).toNat := by
      simp [intChars, hneg]
    rw [hunf, List.cons_append]
    simp only [parseIntJson, if_pos rfl]
    rw [parseNat_encode _ _ hrest]
    simp only [Option.map]
    have hv : -(((-i).toNat : Int)) = i := by omega
    rw [hv]
    simp
  · have hunf : intChars i = natDigits i.toNat := by
      simp [intChars, hneg]
    rw [hunf]
    have habs : i.toNat = i.natAbs := by omega
    cases hnd : natDigits i.toNat with
    | nil =>
      exfalso
      rw [natDigits, habs] at hnd
      exact h1 hnd
    | cons c ds =>
      have hc : isDigitChar c = true := by
        apply h2
        rw [natDigits, habs] at hnd
        rw [hnd]; simp
      have hcne : c ≠ '-' := by
        intro hcc
        rw [hcc] at hc
        simp [isDigitChar] at hc
      simp only [List.cons_append, parseIntJson, if_neg hcne]
      rw [← List.cons_append, ← hnd, parseNat_encode _ _ hrest]
      simp only [Option.map]
      have hv : ((i.toNat : Int)) = i := by omega
      rw [hv]

theorem parseChunk_encode (c : Chunk) (rest : List Char) :
    parseChunk (encodeChunk c ++ rest) = some (c, rest) := by
  have hshape : encodeChunk c ++ rest
      = litIndex ++ (intChars c.Index ++ (litStart ++ (intChars c.Start
        ++ (litEnd ++ (intChars c.End ++ (litClose ++ rest)))))) := by
    simp [encodeChunk]
  rw [hshape]
  simp only [parseChunk]
  rw [expectLit_append]
  simp only [Option.bind]
  rw [parseIntJson_encode c.Index (litStart ++ (intChars c.Start
    ++ (litEnd ++ (intChars c.End ++ (litClose ++ rest))))) rfl]
  simp only [Option.bind]
  rw [expectLit_append]
  simp only [Option.bind]
  rw [parseIntJson_encode c.Start
    (litEnd ++ (intChars c.End ++ (litClose ++ rest))) rfl]
  simp only [Option.bind]
  rw [expectLit_append]
  simp only [Option.bind]
  rw [parseIntJson_encode c.End (litClose ++ rest) rfl]
  simp only [Option.bind]
  rw [expectLit_append]
  simp only [Option.map]

theorem encodeChunkSeq_shape (c : Chunk) (t : List Chunk) :
    ∃ u, encodeChunkSeq (c :: t) = '\x7b' :: u := by
  cases t with
  | nil => exact ⟨_, rfl⟩
  | cons c2 t2 => exact ⟨_, rfl⟩

theorem parseChunkSeqAux_encode :
    ∀ (l : List Chunk) (fuel : Nat), l ≠ [] → l.length ≤ fuel →
      parseChunkSeqAux fuel (encodeChunkSeq l ++ [']'])
        = some (l, [']']) := by
  intro l
  induction l with
  | nil => intro fuel h; exact absurd rfl h
  | cons c t ih =>
    intro fuel _ hlen
    cases fuel with
    | zero => simp at hlen
    | succ f =>
      cases t with
      | nil =>
        simp only [encodeChunkSeq, parseChunkSeqAux]
        rw [parseChunk_encode]
        simp only [Option.bind]
        rw [if_neg (by decide : ¬(']' = ','))]
      | cons c2 t2 =>
        simp only [encodeChunkSeq, parseChunkSeqAux]
        have hshape : (encodeChunk c ++ ',' :: encodeChunkSeq (c2 :: t2)) ++ [']']
            = encodeChunk c ++ (',' :: (encodeChunkSeq (c2 :: t2) ++ [']'])) := by
          simp
        rw [hshape, parseChunk_encode]
        simp only [Option.bind]
        rw [if_pos trivial]
        rw [ih f (by simp) (by simpa using hlen)]
        simp only [Option.map]

theorem encodeChunk_len (c : Chunk) : 1 ≤ (encodeChunk c).length := by
  simp [encodeChunk, litIndex]

theorem encodeChunkSeq_len (l : List Chunk) :
    l.length ≤ (encodeChunkSeq l).length := by
  induction l with
  | nil => simp [encodeChunkSeq]
  | cons c t ih =>
    cases t with
    | nil =>
      have : encodeChunkSeq [c] = encodeChunk c := rfl
      rw [this]
      have := encodeChunk_len c
      simp only [List.length_cons, List.length_nil]
      omega
    | cons c2 t2 =>
      have hseq : encodeChunkSeq (c :: c2 :: t2)
          = encodeChunk c ++ ',' :: encodeChunkSeq (c2 :: t2) := rfl
      rw [hseq]
      have hc := encodeChunk_len c
      simp only [List.length_cons, List.length_append] at ih ⊢
      omega

theorem decodeChunks_encodeChunks (l : List Chunk) :
    decodeChunks (encodeChunks l) = some l := by
  cases l with
  | nil => rfl
  | cons c t =>
    obtain ⟨u, hu⟩ := encodeChunkSeq_shape c t
    have henc : encodeChunks (c :: t)
        = '[' :: (encodeChunkSeq (c :: t) ++ [']']) := rfl
    rw [henc]
    simp only [decodeChunks]
    rw [if_neg (by rw [hu]; simp [litNull])]
    have hne : ¬(encodeChunkSeq (c :: t) ++ [']'] = [']']) := by
      rw [hu]; simp
    rw [if_pos (by trivial), if_neg hne]
    rw [parseChunkSeqAux_encode (c :: t)
      (encodeChunkSeq (c :: t) ++ [']']).length (by simp) (by
        have h1 := encodeChunkSeq_len (c :: t)
        simp only [List.length_append, List.length_cons, List.length_nil] at h1 ⊢
        omega)]
    simp only [Option.bind]
    rw [if_pos trivial]

/-- C5: `save` then `load` round-trips (same Index/Start/End in the same
order); `load` on a missing ledger file returns the empty list without
error; `load` on unparseable content returns a parse error. -/
theorem ledger_roundtrip :
    (∀ (l : List Chunk) (fs : Option (List Char)),
      loadFailedChunksM (saveFailedChunksM l true fs).2 = .ok l) ∧
    loadFailedChunksM none = .ok [] ∧
    (∀ s : List Char, decodeChunks s = none →
      loadFailedChunksM (some s) = .error .parseFailed) := by
  refine ⟨?_, rfl, ?_⟩
  · intro l fs
    simp [saveFailedChunksM, loadFailedChunksM, decodeChunks_encodeChunks]
  · intro s hs
    simp [loadFailedChunksM, hs]

/-- Witness for C5: round-trip of one chunk, and load of the corrupted
content `x`. -/
theorem ledger_roundtrip_witness :
    loadFailedChunksM (saveFailedChunksM [⟨1, 10, 19⟩] true none).2
      = .ok [⟨1, 10, 19⟩] ∧
    loadFailedChunksM (some ['x']) = .error .parseFailed :=
  ⟨ledger_roundtrip.1 [⟨1, 10, 19⟩] none,
   ledger_roundtrip.2.2 ['x'] rfl⟩

/-- C4: `downloadChunksConcurrently` (with cooperating filesystem) errors
iff at least one chunk fails terminally; on failure the full failed-chunk
list is persisted to the ledger before returning; on zero failures any
stale ledger file is removed and success is returned; the empty chunk list
succeeds. -/
theorem downloadChunksConcurrently_spec (chunks : List Chunk)
    (outcome : Chunk → Bool) (fs : Option (List Char)) :
    ((∃ e, (downloadChunksConcurrentlyM chunks outcome true true fs).1
        = .error e) ↔ ∃ c ∈ chunks, outcome c = false) ∧
    ((∃ c ∈ chunks, outcome c = false) →
      (downloadChunksConcurrentlyM chunks outcome true true fs).2
        = some (encodeChunks (chunks.filter (fun c => !(outcome c))))) ∧
    ((∀ c ∈ chunks, outcome c = true) →
      (downloadChunksConcurrentlyM chunks outcome true true fs).1 = .ok ()
      ∧ (downloadChunksConcurrentlyM chunks outcome true true fs).2 = none) ∧
    (chunks = [] →
      (downloadChunksConcurrentlyM chunks outcome true true fs).1
        = .ok ()) := by
  cases hf : chunks.filter (fun c => !(outcome c)) with
  | nil =>
    have hall : ∀ c ∈ chunks, outcome c = true := by
      intro c hc
      have := List.filter_eq_nil_iff.mp hf c hc
      simpa using this
    have hres : downloadChunksConcurrentlyM chunks outcome true true fs
        = (.ok (), none) := by
      simp only [downloadChunksConcurrentlyM, hf]
      cases fs with
      | none => rfl
      | some s => simp
    rw [hres]
    refine ⟨?_, ?_, fun _ => ⟨rfl, rfl⟩, fun _ => rfl⟩
    · constructor
      · rintro ⟨e, he⟩
        exact absurd he (by simp)
      · rintro ⟨c, hc, hcf⟩
        rw [hall c hc] at hcf
        exact absurd hcf (by simp)
    · rintro ⟨c, hc, hcf⟩
      rw [hall c hc] at hcf
      exact absurd hcf (by simp)
  | cons fc rest =>
    have hmem : fc ∈ chunks ∧ outcome fc = false := by
      have : fc ∈ chunks.filter (fun c => !(outcome c)) := by
        rw [hf]; simp
      have h2 := List.mem_filter.mp this
      refine ⟨h2.1, by simpa using h2.2⟩
    have hres : downloadChunksConcurrentlyM chunks outcome true true fs
        = (.error (.chunkFailed fc), some (encodeChunks (fc :: rest))) := by
      simp [downloadChunksConcurrentlyM, hf]
    rw [hres]
    refine ⟨?_, ?_, ?_, ?_⟩
    · exact ⟨fun _ => ⟨fc, hmem.1, hmem.2⟩, fun _ => ⟨_, rfl⟩⟩
    · intro _
      rfl
    · intro hall
      rw [hall fc hmem.1] at hmem
      exact absurd hmem.2 (by simp)
    · intro hnil
      rw [hnil] at hf
      simp at hf

/-- Witness for C4: two chunks with the second failing, and the all-success
case on the same list. -/
theorem downloadChunksConcurrently_spec_witness :
    (downloadChunksConcurrentlyM [⟨0, 0, 9⟩, ⟨1, 10, 19⟩]
        (fun c => decide (c.Index = 0)) true true none).2
      = some (encodeChunks [⟨1, 10, 19⟩]) ∧
    (downloadChunksConcurrentlyM [⟨0, 0, 9⟩, ⟨1, 10, 19⟩]
        (fun _ => true) true true (some ['x'])).1 = .ok () ∧
    (downloadChunksConcurrentlyM [⟨0, 0, 9⟩, ⟨1, 10, 19⟩]
        (fun _ => true) true true (some ['x'])).2 = none :=
  ⟨(downloadChunksConcurrently_spec [⟨0, 0, 9⟩, ⟨1, 10, 19⟩]
      (fun c => decide (c.Index = 0)) none).2.1
      ⟨⟨1, 10, 19⟩, by decide, by decide⟩,
   ((downloadChunksConcurrently_spec [⟨0, 0, 9⟩, ⟨1, 10, 19⟩]
      (fun _ => true) (some ['x'])).2.2.1 (fun _ _ => rfl)).1,
   ((downloadChunksConcurrently_spec [⟨0, 0, 9⟩, ⟨1, 10, 19⟩]
      (fun _ => true) (some ['x'])).2.2.1 (fun _ _ => rfl)).2⟩

theorem seq_all_ok (chunks : List Chunk) (outcome : Chunk → Bool)
    (saveOk : Bool) (fs : Option (List Char))
    (h : ∀ c ∈ chunks, outcome c = true) :
    downloadChunksSequentiallyM chunks outcome saveOk true fs
      = (.ok (), none, chunks) := by
  induction chunks with
  | nil =>
    cases fs with
    | none => rfl
    | some s => simp [downloadChunksSequentiallyM]
  | cons c t ih =>
    have hc : outcome c = true := h c (by simp)
    simp only [downloadChunksSequentiallyM, hc, if_true,
      ih (fun x hx => h x (by simp [hx]))]

theorem seq_first_fail (pre : List Chunk) (c : Chunk) (post : List Chunk)
    (outcome : Chunk → Bool) (saveOk removeOk : Bool)
    (fs : Option (List Char))
    (hpre : ∀ x ∈ pre, outcome x = true) (hc : outcome c = false) :
    downloadChunksSequentiallyM (pre ++ c :: post) outcome saveOk removeOk fs
      = (.error (.chunkFailed c),
         (if saveOk then some (encodeChunks [c]) else fs),
         pre ++ [c]) := by
  induction pre with
  | nil =>
    simp only [List.nil_append, downloadChunksSequentiallyM, hc]
    simp
  | cons p pre' ih =>
    have hp : outcome p = true := hpre p (by simp)
    have ih' := ih (fun x hx => hpre x (by simp [hx]))
    simp only [List.cons_append, downloadChunksSequentiallyM, hp, if_true,
      List.append_eq]
    rw [ih']

/-- C7: sequential mode processes chunks in list order; if every chunk
succeeds it deletes any existing ledger file and returns success, having
attempted exactly the whole list; on the first terminal failure it saves
exactly that one chunk (overwriting the ledger), returns that chunk's
error, and the attempted chunks are exactly the prefix up to and including
the failing one — none of the later chunks is attempted. -/
theorem downloadChunksSequentially_spec (outcome : Chunk → Bool)
    (fs : Option (List Char)) :
    (∀ chunks : List Chunk, (∀ c ∈ chunks, outcome c = true) →
      downloadChunksSequentiallyM chunks outcome true true fs
        = (.ok (), none, chunks)) ∧
    (∀ (pre : List Chunk) (c : Chunk) (post : List Chunk),
      (∀ x ∈ pre, outcome x = true) → outcome c = false →
      downloadChunksSequentiallyM (pre ++ c :: post) outcome true true fs
        = (.error (.chunkFailed c), some (encodeChunks [c]), pre ++ [c])) :=
  ⟨fun chunks h => seq_all_ok chunks outcome true fs h,
   fun pre c post h1 h2 => by
    have := seq_first_fail pre c post outcome true true fs h1 h2
    simpa using this⟩

/-- Witness for C7: all-success on two chunks with a stale ledger, and
first-failure in the middle of three chunks. -/
theorem downloadChunksSequentially_spec_witness :
    downloadChunksSequentiallyM [⟨0, 0, 9⟩, ⟨1, 10, 19⟩] (fun _ => true)
        true true (some ['x'])
      = (.ok (), none, [⟨0, 0, 9⟩, ⟨1, 10, 19⟩]) ∧
    downloadChunksSequentiallyM
        ([⟨0, 0, 9⟩] ++ (⟨1, 10, 19⟩ : Chunk) :: [⟨2, 20, 24⟩])
        (fun c => decide (c.Index = 0)) true true none
      = (.error (.chunkFailed ⟨1, 10, 19⟩),
         some (encodeChunks [⟨1, 10, 19⟩]), [⟨0, 0, 9⟩] ++ [⟨1, 10, 19⟩]) :=
  ⟨(downloadChunksSequentially_spec (fun _ => true) (some ['x'])).1
      [⟨0, 0, 9⟩, ⟨1, 10, 19⟩] (fun _ _ => rfl),
   (downloadChunksSequentially_spec (fun c => decide (c.Index = 0)) none).2
      [⟨0, 0, 9⟩] ⟨1, 10, 19⟩ [⟨2, 20, 24⟩] (by decide) (by decide)⟩

/-- C6 counterexample: a concurrent pass with one terminally failing chunk
and a failing ledger write returns the ledger-write error, which does not
wrap (or equal) the chunk's original download error — the original error
is masked, contradicting the claim for concurrent passes. -/
theorem concurrent_save_error_masks_cex :
    (downloadChunksConcurrentlyM [⟨0, 0, 9⟩] (fun _ => false) false true
        none).1 = .error .saveLedgerFailed ∧
    wrapsChunkError .saveLedgerFailed = false ∧
    DlError.saveLedgerFailed ≠ .chunkFailed ⟨0, 0, 9⟩ := by
  exact ⟨rfl, rfl, by decide⟩

/-- C6 (amended): in a sequential pass the original chunk download error is
returned even when the ledger write fails (the save failure is only
logged); in a concurrent pass the original error is returned when the
ledger write succeeds, but a failing ledger write replaces it with the
ledger-write error. -/
theorem save_error_propagation (pre : List Chunk) (c : Chunk)
    (post : List Chunk) (outcome : Chunk → Bool) (removeOk : Bool)
    (fs : Option (List Char))
    (hpre : ∀ x ∈ pre, outcome x = true) (hc : outcome c = false) :
    (downloadChunksSequentiallyM (pre ++ c :: post) outcome false removeOk
        fs).1 = .error (.chunkFailed c) ∧
    (downloadChunksConcurrentlyM (pre ++ c :: post) outcome true removeOk
        fs).1 = .error (.chunkFailed c) ∧
    (downloadChunksConcurrentlyM (pre ++ c :: post) outcome false removeOk
        fs).1 = .error .saveLedgerFailed ∧
    wrapsChunkError .saveLedgerFailed = false := by
  have hfil : (pre ++ c :: post).filter (fun x => !(outcome x))
      = c :: post.filter (fun x => !(outcome x)) := by
    rw [List.filter_append]
    have h1 : pre.filter (fun x => !(outcome x)) = [] := by
      apply List.filter_eq_nil_iff.mpr
      intro x hx
      simp [hpre x hx]
    rw [h1, List.nil_append, List.filter_cons_of_pos (by simp [hc])]
  refine ⟨?_, ?_, ?_, rfl⟩
  · rw [seq_first_fail pre c post outcome false removeOk fs hpre hc]
  · simp [downloadChunksConcurrentlyM, hfil]
  · simp [downloadChunksConcurrentlyM, hfil]

/-- Witness for the amended C6 at one failing chunk. -/
theorem save_error_propagation_witness :
    (downloadChunksSequentiallyM ([] ++ (⟨0, 0, 9⟩ : Chunk) :: [])
        (fun _ => false) false true none).1
      = .error (.chunkFailed ⟨0, 0, 9⟩) ∧
    (downloadChunksConcurrentlyM ([] ++ (⟨0, 0, 9⟩ : Chunk) :: [])
        (fun _ => false) true true none).1
      = .error (.chunkFailed ⟨0, 0, 9⟩) ∧
    (downloadChunksConcurrentlyM ([] ++ (⟨0, 0, 9⟩ : Chunk) :: [])
        (fun _ => false) false true none).1
      = .error .saveLedgerFailed ∧
    wrapsChunkError .saveLedgerFailed = false :=
  save_error_propagation [] ⟨0, 0, 9⟩ [] (fun _ => false) true none
    (by simp) rfl

/-- C10: during the replay pass of `downloadWithResume`, if the ledger
holds pending chunks and the sequential replay fails terminally on a chunk
before the last one, the ledger is overwritten with only that single
failing chunk: loading it back yields exactly `[c]`, so the entries for the
pending chunks that were never attempted in this pass (everything after
`c`) are gone from the ledger although their ranges were not downloaded;
the attempted list is exactly the prefix up to and including `c`. -/
theorem resumeReplay_overwrites_pending (pre : List Chunk) (c : Chunk)
    (post : List Chunk) (outcome : Chunk → Bool)
    (hpre : ∀ x ∈ pre, outcome x = true) (hc : outcome c = false)
    (hpost : post ≠ []) :
    resumeReplayM outcome true true (some (encodeChunks (pre ++ c :: post)))
      = (.error (.chunkFailed c), some (encodeChunks [c]), pre ++ [c]) ∧
    loadFailedChunksM (some (encodeChunks [c])) = .ok [c] := by
  constructor
  · have hload : loadFailedChunksM (some (encodeChunks (pre ++ c :: post)))
        = .ok (pre ++ c :: post) := by
      simp [loadFailedChunksM, decodeChunks_encodeChunks]
    cases hp : pre ++ c :: post with
    | nil =>
      exfalso
      have : c :: post ≠ [] := by simp
      rcases List.append_eq_nil.mp hp with ⟨_, h2⟩
      exact this h2
    | cons p0 pt =>
      rw [hp] at hload
      simp only [resumeReplayM]
      rw [hload]
      have hseq := seq_first_fail pre c post outcome true true
        (some (encodeChunks (pre ++ c :: post))) hpre hc
      rw [hp] at hseq
      simpa using hseq
  · simp [loadFailedChunksM, decodeChunks_encodeChunks]

/-- Witness for C10: ledger holding two pending chunks, replay failing on
the first. -/
theorem resumeReplay_overwrites_pending_witness :
    resumeReplayM (fun _ => false) true true
        (some (encodeChunks ([] ++ (⟨0, 0, 9⟩ : Chunk) :: [⟨1, 10, 19⟩])))
      = (.error (.chunkFailed ⟨0, 0, 9⟩),
         some (encodeChunks [⟨0, 0, 9⟩]), [] ++ [⟨0, 0, 9⟩]) ∧
    loadFailedChunksM (some (encodeChunks [(⟨0, 0, 9⟩ : Chunk)]))
      = .ok [⟨0, 0, 9⟩] :=
  resumeReplay_overwrites_pending [] ⟨0, 0, 9⟩ [⟨1, 10, 19⟩]
    (fun _ => false) (by simp) rfl (by simp)

/-- C9 counterexample: `DownloadConfig` is not immutable after
construction: `calculateChunks` with AutoChunk overwrites
`config.ChunkSize` (here 1 becomes 4MB), and `getFileInfo` overwrites
`config.FileSize` (here 0 becomes 5). -/
theorem config_mutation_cex :
    (calculateChunks autoCfg 0 1).2.ChunkSize = 4 * 1024 * 1024 ∧
    autoCfg.ChunkSize = 1 ∧
    (calculateChunks autoCfg 0 1).2.ChunkSize ≠ autoCfg.ChunkSize ∧
    (getFileInfoM testCfg ⟨200, ['5'], litBytes⟩ ⟨true, 206⟩).2.FileSize = 5 ∧
    testCfg.FileSize = 0 ∧
    (getFileInfoM testCfg ⟨200, ['5'], litBytes⟩ ⟨true, 206⟩).2.FileSize
      ≠ testCfg.FileSize := by
  refine ⟨rfl, rfl, by decide, rfl, rfl, by decide⟩

/-- C9 (amended): `calculateChunks` mutates only `ChunkSize` (and only when
AutoChunk is enabled, to `calculateChunkSize (end - start)`; with AutoChunk
disabled the config is unchanged), and `getFileInfo` mutates only
`FileSize`; every other `DownloadConfig` field keeps its construction-time
value across both operations. -/
theorem config_mutation_amended (cfg : DownloadConfig) (s e : Int)
    (hr : HeadResponse) (probe : RangeProbe) :
    ((calculateChunks cfg s e).2.URL = cfg.URL ∧
     (calculateChunks cfg s e).2.OutputPath = cfg.OutputPath ∧
     (calculateChunks cfg s e).2.FailedChunksJason = cfg.FailedChunksJason ∧
     (calculateChunks cfg s e).2.FileSize = cfg.FileSize ∧
     (calculateChunks cfg s e).2.MaxConcurrency = cfg.MaxConcurrency ∧
     (calculateChunks cfg s e).2.RetryCount = cfg.RetryCount ∧
     (calculateChunks cfg s e).2.EnableResume = cfg.EnableResume ∧
     (calculateChunks cfg s e).2.AutoChunk = cfg.AutoChunk) ∧
    (cfg.AutoChunk = false → (calculateChunks cfg s e).2 = cfg) ∧
    (cfg.AutoChunk = true →
      (calculateChunks cfg s e).2.ChunkSize = calculateChunkSize (e - s)) ∧
    ((getFileInfoM cfg hr probe).2.URL = cfg.URL ∧
     (getFileInfoM cfg hr probe).2.OutputPath = cfg.OutputPath ∧
     (getFileInfoM cfg hr probe).2.FailedChunksJason
       = cfg.FailedChunksJason ∧
     (getFileInfoM cfg hr probe).2.ChunkSize = cfg.ChunkSize ∧
     (getFileInfoM cfg hr probe).2.MaxConcurrency = cfg.MaxConcurrency ∧
     (getFileInfoM cfg hr probe).2.RetryCount = cfg.RetryCount ∧
     (getFileInfoM cfg hr probe).2.EnableResume = cfg.EnableResume ∧
     (getFileInfoM cfg hr probe).2.AutoChunk = cfg.AutoChunk) := by
  have heq : (calculateChunks cfg s e).2
      = if cfg.AutoChunk = true
        then { cfg with ChunkSize := calculateChunkSize (e - s) }
        else cfg := rfl
  have hcalc : ∀ P : DownloadConfig → Prop, P cfg →
      P { cfg with ChunkSize := calculateChunkSize (e - s) } →
      P (calculateChunks cfg s e).2 := by
    intro P h1 h2
    rw [heq]
    by_cases hA : cfg.AutoChunk = true
    · rw [if_pos hA]; exact h2
    · rw [if_neg hA]; exact h1
  have h2form : (getFileInfoM cfg hr probe).2 = cfg ∨
      ∃ v : Int, (getFileInfoM cfg hr probe).2
        = { cfg with FileSize := v } := by
    simp only [getFileInfoM]
    split
    · left; rfl
    · split
      · left; rfl
      · split
        · right; exact ⟨_, rfl⟩
        · split
          · right; exact ⟨_, rfl⟩
          · right; exact ⟨_, rfl⟩
  have hinfo : ∀ P : DownloadConfig → Prop, P cfg →
      (∀ v : Int, P { cfg with FileSize := v }) →
      P (getFileInfoM cfg hr probe).2 := by
    intro P h1 h2
    rcases h2form with h | ⟨v, h⟩
    · rw [h]; exact h1
    · rw [h]; exact h2 v
  refine ⟨?_, ?_, ?_, ?_⟩
  · exact hcalc (fun d => d.URL = cfg.URL ∧ d.OutputPath = cfg.OutputPath ∧
      d.FailedChunksJason = cfg.FailedChunksJason ∧
      d.FileSize = cfg.FileSize ∧ d.MaxConcurrency = cfg.MaxConcurrency ∧
      d.RetryCount = cfg.RetryCount ∧ d.EnableResume = cfg.EnableResume ∧
      d.AutoChunk = cfg.AutoChunk)
      ⟨rfl, rfl, rfl, rfl, rfl, rfl, rfl, rfl⟩
      ⟨rfl, rfl, rfl, rfl, rfl, rfl, rfl, rfl⟩
  · intro hA
    rw [heq, if_neg (by simp [hA])]
  · intro hA
    rw [heq, if_pos hA]
  · exact hinfo (fun d => d.URL = cfg.URL ∧ d.OutputPath = cfg.OutputPath ∧
      d.FailedChunksJason = cfg.FailedChunksJason ∧
      d.ChunkSize = cfg.ChunkSize ∧ d.MaxConcurrency = cfg.MaxConcurrency ∧
      d.RetryCount = cfg.RetryCount ∧ d.EnableResume = cfg.EnableResume ∧
      d.AutoChunk = cfg.AutoChunk)
      ⟨rfl, rfl, rfl, rfl, rfl, rfl, rfl, rfl⟩
      (fun _ => ⟨rfl, rfl, rfl, rfl, rfl, rfl, rfl, rfl⟩)

/-- Witness for the amended C9 at concrete configs and responses. -/
theorem config_mutation_amended_witness :
    (calculateChunks testCfg 0 25).2 = testCfg ∧
    (calculateChunks autoCfg 0 1).2.ChunkSize = calculateChunkSize (1 - 0) ∧
    (getFileInfoM testCfg ⟨200, ['5'], litBytes⟩ ⟨true, 206⟩).2.ChunkSize
      = testCfg.ChunkSize :=
  ⟨(config_mutation_amended testCfg 0 25 ⟨200, ['5'], litBytes⟩
      ⟨true, 206⟩).2.1 rfl,
   (config_mutation_amended autoCfg 0 1 ⟨200, ['5'], litBytes⟩
      ⟨true, 206⟩).2.2.1 rfl,
   (config_mutation_amended testCfg 0 25 ⟨200, ['5'], litBytes⟩
      ⟨true, 206⟩).2.2.2.2.2.2.1⟩

end Ezft
